import Mathlib

/-!
Verification of `kellegous/blend` (src/main.rs): a CLI tool that composites a
JPEG photo over a solid background color at a given opacity and re-encodes it.

Rust strings are modelled as lists of UTF-8 bytes (`List Nat`, each < 256),
because `str::len`, `str` slicing and `starts_with` in the source operate on
bytes.  A Rust function that can panic is modelled with an `Option` result:
`none` means the call panics.
-/

namespace Blend

/-- The `Color` struct from src/main.rs (three `u8` channels). -/
structure Color where
  r : Nat
  g : Nat
  b : Nat
deriving Repr, DecidableEq

/-- `Color::white()` from src/main.rs. -/
def Color.white : Color := ⟨255, 255, 255⟩

/-- Value of a byte as a hexadecimal digit, as `char::to_digit(16)` sees it:
digits `0`-`9`, `a`-`f`, `A`-`F`. -/
def hexDigitVal (c : Nat) : Option Nat :=
  if 48 ≤ c ∧ c ≤ 57 then some (c - 48)
  else if 97 ≤ c ∧ c ≤ 102 then some (c - 87)
  else if 65 ≤ c ∧ c ≤ 70 then some (c - 55)
  else none

/-- The digit-accumulation loop of `u8::from_str_radix(_, 16)`: each byte must
be a hex digit, and the accumulated value must stay within `u8` range. -/
def parseHexDigits : List Nat → Nat → Except Unit Nat
  | [], acc => .ok acc
  | c :: rest, acc =>
    match hexDigitVal c with
    | none => .error ()
    | some d => if acc * 16 + d > 255 then .error () else parseHexDigits rest (acc * 16 + d)

/-- `u8::from_str_radix(s, 16)` on the bytes of `s`: an optional leading `+`
sign (byte 43) followed by at least one hex digit; `-` is not accepted for an
unsigned type (it falls through to the digit loop and fails there). -/
def u8FromStrRadix16 (s : List Nat) : Except Unit Nat :=
  match s with
  | [] => .error ()
  | c :: rest =>
    if c = 43 then
      match rest with
      | [] => .error ()
      | _ => parseHexDigits rest 0
    else parseHexDigits s 0

/-- Rust `str::is_char_boundary` at index `i` (for `i > 0`): `i` is the length,
or the byte at `i` is not a UTF-8 continuation byte (`0x80..0xBF`). -/
def isCharBoundary (s : List Nat) (i : Nat) : Bool :=
  i == s.length || s.getD i 0 < 128 || 192 ≤ s.getD i 0

/-- Rust slice `&s[a..b]` as a byte list (assuming `a ≤ b ≤ s.len()`). -/
def strSlice (s : List Nat) (a b : Nat) : List Nat :=
  (s.drop a).take (b - a)

/-- `Color::from_str` from src/main.rs, on the UTF-8 bytes of the input.
`none` models a panic: Rust `&s[a..b]` panics when `a` or `b` is not a char
boundary, and the source slices `&s[1..3]`, `&s[3..5]`, `&s[5..7]` after only
checking `s.starts_with` for the hash byte and `s.len() == 7`.  Byte 35 is the hash character. -/
def colorFromStr (s : List Nat) : Option (Except Unit Color) :=
  if ¬ (s.head? = some 35) ∨ s.length ≠ 7 then some (.error ())
  else if ¬ (isCharBoundary s 1 ∧ isCharBoundary s 3) then none
  else match u8FromStrRadix16 (strSlice s 1 3) with
  | .error _ => some (.error ())
  | .ok r =>
    if ¬ (isCharBoundary s 3 ∧ isCharBoundary s 5) then none
    else match u8FromStrRadix16 (strSlice s 3 5) with
    | .error _ => some (.error ())
    | .ok g =>
      if ¬ (isCharBoundary s 5 ∧ isCharBoundary s 7) then none
      else match u8FromStrRadix16 (strSlice s 5 7) with
      | .error _ => some (.error ())
      | .ok b => some (.ok ⟨r, g, b⟩)

/-- Whether a byte is a hexadecimal digit. -/
def isHexDigit (c : Nat) : Bool := (hexDigitVal c).isSome

/-- The shape the spec demands of a `--background` argument, following the
words of the spec: exactly a hash byte followed by 6 hexadecimal digits. -/
def specSixHexForm (s : List Nat) : Bool :=
  s.length = 7 ∧ s.getD 0 0 = 35 ∧ ((s.drop 1).all isHexDigit)

/-- The shape `Color::from_str` actually accepts (on ASCII input): `#` then
three 2-byte groups, each either two hex digits or a `+` sign and one hex
digit (byte 43 is the plus sign). -/
def acceptedPair (a b : Nat) : Bool :=
  (isHexDigit a && isHexDigit b) || (a == 43 && isHexDigit b)

/-- Acceptance shape of the real parser on ASCII input. -/
def acceptedForm (s : List Nat) : Bool :=
  s.length = 7 ∧ s.getD 0 0 = 35 ∧ acceptedPair (s.getD 1 0) (s.getD 2 0)
    ∧ acceptedPair (s.getD 3 0) (s.getD 4 0) ∧ acceptedPair (s.getD 5 0) (s.getD 6 0)

/-- Lowercase hex digit byte for a value `< 16`, as `{:02x}` renders it. -/
def toHexByte (d : Nat) : Nat := if d < 10 then 48 + d else 87 + d

/-- `Color::fmt` (the `Display` impl) from src/main.rs: `#` followed by each
channel as two lowercase hex digits, as UTF-8 bytes. -/
def colorDisplay (c : Color) : List Nat :=
  [35, toHexByte (c.r / 16), toHexByte (c.r % 16),
       toHexByte (c.g / 16), toHexByte (c.g % 16),
       toHexByte (c.b / 16), toHexByte (c.b % 16)]

/-- Digit value shorthand used to state parsed values. -/
def hexValD (c : Nat) : Nat := (hexDigitVal c).getD 0

/-- Channel expansion in `decode_jpeg` (src/main.rs lines 90-95): each 3-byte
RGB chunk from the decoder becomes the 4 bytes `[b, g, r, 0]` — the
little-endian byte layout of cairo `Format::Rgb24` — via `chunks_exact(3)`,
which silently drops a trailing partial chunk. -/
def expandBgra : List Nat → List Nat
  | r :: g :: b :: rest => b :: g :: r :: 0 :: expandBgra rest
  | _ => []

/-- Modelled from the spec: the per-channel blend rule of cairo
`Context::paint_with_alpha` invoked by `main` — the blend arithmetic lives in
the external cairo library, so it is taken from Step C of the spec:
`result_channel = background_channel * (1 - opacity) + photo_channel * opacity`
in normalized [0,1] intensity space, scaled by 255 and rounded. Opacity is a
rational here, standing for the exact real arithmetic the spec describes. -/
def blendChannel (op : ℚ) (bg ph : Nat) : ℤ :=
  round ((((bg : ℚ) / 255) * (1 - op) + ((ph : ℚ) / 255) * op) * 255)

/-- Modelled from the spec: blended values are clamped to [0, 255] before
storage (spec Step C, for out-of-range opacity extrapolation). -/
def clampByte (x : ℤ) : Nat := (max 0 (min 255 x)).toNat

/-- Modelled from the spec: per-pixel compositing of the photo surface (BGRA
bytes) over the background-filled destination surface.  Every pixel uses the
same scalar opacity; the fourth byte of the photo is ignored (no per-pixel alpha is
read from the source), and the destination stays opaque (alpha byte 255). -/
def compositeBgra (op : ℚ) (c : Color) : List Nat → List Nat
  | pb :: pg :: pr :: _pa :: rest =>
      clampByte (blendChannel op c.b pb) :: clampByte (blendChannel op c.g pg) ::
        clampByte (blendChannel op c.r pr) :: 255 :: compositeBgra op c rest
  | _ => []

/-- `encode_jpeg` (src/main.rs lines 108-117) hands the surface bytes to the
encoder declaring `ColorType::Bgra`: the encoder reads the four bytes of each pixel
as blue, green, red, alpha, and emits the r, g, b samples. -/
def encodeRgbOfBgra : List Nat → List Nat
  | b :: g :: r :: _a :: rest => r :: g :: b :: encodeRgbOfBgra rest
  | _ => []

/-- The per-pixel data path of `main`: decoded RGB samples are expanded to the
BGRA byte order of the photo surface, composited over the background at the given
opacity, and read back out by the encoder as RGB samples. -/
def pipelinePixels (op : ℚ) (c : Color) (rgb : List Nat) : List Nat :=
  encodeRgbOfBgra (compositeBgra op c (expandBgra rgb))

/-- Pixel formats reported by the external `jpeg_decoder` crate. -/
inductive PixelFormat where
  | l8
  | l16
  | rgb24
  | cmyk32
deriving DecidableEq, Repr

/-- A cairo image surface, modelled as its dimensions and byte buffer. -/
structure Surface where
  width : Nat
  height : Nat
  data : List Nat
deriving Repr, DecidableEq

/-- `Format::Rgb24.stride_for_width` (cairo): 32 bits per pixel with rows
aligned up to 4 bytes, i.e. `((4*w + 3) / 4) * 4`, which equals `4 * w`. -/
def strideForWidth (w : Nat) : Nat := ((4 * w + 3) / 4) * 4

/-- `ImageSurface::create_for_data` (cairo): rejects a buffer holding fewer
than `height * stride` bytes. -/
def createForData (data : List Nat) (w h stride : Nat) : Except Unit Surface :=
  if data.length < h * stride then .error () else .ok ⟨w, h, data⟩

/-- `decode_jpeg` from src/main.rs, given the outputs of the external decoder: the
decoded sample bytes and the optional metadata (width, height, pixel format).
Missing metadata or a non-RGB24 format is an error; otherwise the samples are
expanded to BGRA and wrapped in a surface with the `Rgb24` stride.  Nothing
compares `rgb.length` with `width * height * 3`. -/
def decodeJpeg (rgb : List Nat) (info : Option (Nat × Nat × PixelFormat)) :
    Except Unit Surface :=
  match info with
  | none => .error ()
  | some (w, h, fmt) =>
    if fmt ≠ PixelFormat.rgb24 then .error ()
    else createForData (expandBgra rgb) w h (strideForWidth w)

/-- Rust `as i32` on a `usize` dimension value, as used when `decode_jpeg`
and `ImageSurface::create` pass dimensions to cairo: wrap modulo 2^32 into
the signed 32-bit range. -/
def int32OfNat (v : Nat) : ℤ :=
  if v % 4294967296 < 2147483648 then ((v % 4294967296 : Nat) : ℤ)
  else ((v % 4294967296 : Nat) : ℤ) - 4294967296

/-- Rust `as u16` on an `i32` (src/main.rs lines 113-114): keep the low 16
bits. -/
def u16OfInt32 (v : ℤ) : Nat := (v % 65536).toNat

/-- Dimension flow of `main`: the decoder metadata is `u16`, `decode_jpeg`
casts through `usize` to the cairo `i32`, `ImageSurface::create` copies the
dimensions of the photo surface, and `encode_jpeg` casts the surface dimensions
back `as u16` for the encoder. -/
def mainDims (w h : Nat) : Nat × Nat :=
  (u16OfInt32 (int32OfNat w), u16OfInt32 (int32OfNat h))

lemma hexDigitVal_lt {c v : Nat} (h : hexDigitVal c = some v) : v < 16 := by
  unfold hexDigitVal at h
  split_ifs at h <;> simp_all <;> omega

lemma hexDigitVal_43 : hexDigitVal 43 = none := by decide

lemma parseHexDigits_none {c : Nat} (rest : List Nat) (acc : Nat)
    (hc : hexDigitVal c = none) : parseHexDigits (c :: rest) acc = .error () := by
  simp [parseHexDigits, hc]

lemma parseHexDigits_some {c d : Nat} (rest : List Nat) (acc : Nat)
    (hc : hexDigitVal c = some d) (hle : acc * 16 + d ≤ 255) :
    parseHexDigits (c :: rest) acc = parseHexDigits rest (acc * 16 + d) := by
  simp only [parseHexDigits, hc]
  rw [if_neg (by omega)]

lemma parseHexDigits_pair {a b va vb : Nat} (ha : hexDigitVal a = some va)
    (hb : hexDigitVal b = some vb) :
    parseHexDigits [a, b] 0 = .ok (16 * va + vb) := by
  have h16a := hexDigitVal_lt ha
  have h16b := hexDigitVal_lt hb
  rw [parseHexDigits_some _ _ ha (by omega), parseHexDigits_some _ _ hb (by omega)]
  show Except.ok _ = _
  congr 1
  omega

lemma parseHexDigits_single {b vb : Nat} (hb : hexDigitVal b = some vb) :
    parseHexDigits [b] 0 = .ok vb := by
  have h16b := hexDigitVal_lt hb
  rw [parseHexDigits_some _ _ hb (by omega)]
  show Except.ok _ = _
  congr 1
  omega

lemma u8Pair_iff (a b : Nat) :
    (∃ v, u8FromStrRadix16 [a, b] = .ok v) ↔ acceptedPair a b = true := by
  have h43 : hexDigitVal 43 = none := by decide
  simp only [u8FromStrRadix16, acceptedPair, isHexDigit]
  by_cases ha43 : a = 43
  · subst ha43
    simp only [if_pos rfl, h43, Option.isSome_none, Bool.false_and, Bool.false_or,
      Bool.and_eq_true, beq_iff_eq, true_and, Option.isSome_iff_exists]
    cases hb : hexDigitVal b with
    | none =>
      rw [parseHexDigits_none _ _ hb]
      simp
    | some vb =>
      rw [parseHexDigits_single hb]
      simp
  · rw [if_neg ha43]
    cases ha : hexDigitVal a with
    | none =>
      rw [parseHexDigits_none _ _ ha]
      simp [ha, ha43]
    | some va =>
      have h16a := hexDigitVal_lt ha
      rw [parseHexDigits_some _ _ ha (by omega)]
      cases hb : hexDigitVal b with
      | none =>
        rw [parseHexDigits_none _ _ hb]
        simp [ha, hb]
      | some vb =>
        have h16b := hexDigitVal_lt hb
        rw [parseHexDigits_some _ _ hb (by omega)]
        simp only [ha, hb, Option.isSome_some, Bool.and_self, Bool.true_or, iff_true]
        exact ⟨_, rfl⟩

lemma isCharBoundary_of_ascii {s : List Nat} (h : ∀ x ∈ s, x < 128) (i : Nat) :
    isCharBoundary s i = true := by
  have hb : s.getD i 0 < 128 := by
    rcases Nat.lt_or_ge i s.length with hi | hi
    · rw [List.getD_eq_getElem _ _ hi]
      exact h _ (List.getElem_mem hi)
    · rw [List.getD_eq_default _ _ hi]
      omega
  simp only [isCharBoundary, Bool.or_eq_true, beq_iff_eq, decide_eq_true_eq]
  exact Or.inl (Or.inr hb)


lemma u8Pair_hex {a b va vb : Nat} (ha : hexDigitVal a = some va)
    (hb : hexDigitVal b = some vb) :
    u8FromStrRadix16 [a, b] = .ok (16 * va + vb) := by
  have hne : ¬ a = 43 := by
    intro h
    rw [h, hexDigitVal_43] at ha
    cases ha
  simp only [u8FromStrRadix16, if_neg hne]
  exact parseHexDigits_pair ha hb

lemma exists_seven {s : List Nat} (h : s.length = 7) :
    ∃ a0 a1 a2 a3 a4 a5 a6, s = [a0, a1, a2, a3, a4, a5, a6] := by
  rcases s with _ | ⟨a0, _ | ⟨a1, _ | ⟨a2, _ | ⟨a3, _ | ⟨a4, _ | ⟨a5, _ | ⟨a6, _ | ⟨a7, t⟩⟩⟩⟩⟩⟩⟩⟩ <;>
    first
      | exact ⟨_, _, _, _, _, _, _, rfl⟩
      | simp_all

lemma colorFromStr_accepts_iff_aux (s : List Nat) (h : ∀ x ∈ s, x < 128) :
    ((∃ c, colorFromStr s = some (.ok c)) ↔ acceptedForm s = true) := by
  by_cases hlen : s.length = 7
  · obtain ⟨a0, a1, a2, a3, a4, a5, a6, rfl⟩ := exists_seven hlen
    by_cases h0 : a0 = 35
    · subst h0
      have hbnd := isCharBoundary_of_ascii h
      unfold colorFromStr
      rw [if_neg (by simp)]
      rw [if_neg (by simp [hbnd])]
      have e1 : strSlice [35, a1, a2, a3, a4, a5, a6] 1 3 = [a1, a2] := rfl
      have e2 : strSlice [35, a1, a2, a3, a4, a5, a6] 3 5 = [a3, a4] := rfl
      have e3 : strSlice [35, a1, a2, a3, a4, a5, a6] 5 7 = [a5, a6] := rfl
      rw [e1, e2, e3]
      rcases h12 : u8FromStrRadix16 [a1, a2] with u | v1
      · have hp : acceptedPair a1 a2 = false := by
          cases hacc : acceptedPair a1 a2 with
          | false => rfl
          | true =>
            obtain ⟨v, hv⟩ := (u8Pair_iff a1 a2).mpr hacc
            rw [h12] at hv
            cases hv
        simp [acceptedForm, hp]
      · rcases h34 : u8FromStrRadix16 [a3, a4] with u | v2
        · have hp : acceptedPair a3 a4 = false := by
            cases hacc : acceptedPair a3 a4 with
            | false => rfl
            | true =>
              obtain ⟨v, hv⟩ := (u8Pair_iff a3 a4).mpr hacc
              rw [h34] at hv
              cases hv
          simp [acceptedForm, hbnd, hp]
        · rcases h56 : u8FromStrRadix16 [a5, a6] with u | v3
          · have hp : acceptedPair a5 a6 = false := by
              cases hacc : acceptedPair a5 a6 with
              | false => rfl
              | true =>
                obtain ⟨v, hv⟩ := (u8Pair_iff a5 a6).mpr hacc
                rw [h56] at hv
                cases hv
            simp [acceptedForm, hbnd, hp]
          · have p1 : acceptedPair a1 a2 = true := (u8Pair_iff a1 a2).mp ⟨v1, h12⟩
            have p2 : acceptedPair a3 a4 = true := (u8Pair_iff a3 a4).mp ⟨v2, h34⟩
            have p3 : acceptedPair a5 a6 = true := (u8Pair_iff a5 a6).mp ⟨v3, h56⟩
            simp [acceptedForm, hbnd, p1, p2, p3]
    · unfold colorFromStr
      rw [if_pos (by simp [h0])]
      constructor
      · rintro ⟨c, hc⟩
        cases hc
      · intro hc
        simp [acceptedForm] at hc
        exact absurd hc.1 h0
  · unfold colorFromStr
    rw [if_pos (by simp [hlen])]
    constructor
    · rintro ⟨c, hc⟩
      cases hc
    · intro hc
      simp [acceptedForm] at hc
      exact absurd hc.1 hlen

lemma colorFromStr_sixhex_value_aux (s : List Nat) (hspec : specSixHexForm s = true) :
    colorFromStr s = some (.ok ⟨16 * hexValD (s.getD 1 0) + hexValD (s.getD 2 0),
                                16 * hexValD (s.getD 3 0) + hexValD (s.getD 4 0),
                                16 * hexValD (s.getD 5 0) + hexValD (s.getD 6 0)⟩) := by
  have hlen : s.length = 7 := by
    simp only [specSixHexForm, Bool.and_eq_true, decide_eq_true_eq] at hspec
    exact hspec.1
  obtain ⟨a0, a1, a2, a3, a4, a5, a6, rfl⟩ := exists_seven hlen
  simp only [specSixHexForm, Bool.and_eq_true, decide_eq_true_eq, List.drop, List.all_cons,
    List.all_nil, Bool.and_true] at hspec
  obtain ⟨-, h0, hx⟩ := hspec
  simp only [List.getD_cons_zero, List.getD_cons_succ] at h0 ⊢
  subst h0
  obtain ⟨hx1, hx2, hx3, hx4, hx5, hx6⟩ :
      isHexDigit a1 = true ∧ isHexDigit a2 = true ∧ isHexDigit a3 = true ∧
      isHexDigit a4 = true ∧ isHexDigit a5 = true ∧ isHexDigit a6 = true := by
    simpa using hx
  obtain ⟨v1, hv1⟩ := Option.isSome_iff_exists.mp hx1
  obtain ⟨v2, hv2⟩ := Option.isSome_iff_exists.mp hx2
  obtain ⟨v3, hv3⟩ := Option.isSome_iff_exists.mp hx3
  obtain ⟨v4, hv4⟩ := Option.isSome_iff_exists.mp hx4
  obtain ⟨v5, hv5⟩ := Option.isSome_iff_exists.mp hx5
  obtain ⟨v6, hv6⟩ := Option.isSome_iff_exists.mp hx6
  have hlt : ∀ c v : Nat, hexDigitVal c = some v → c < 128 := by
    intro c v hcv
    unfold hexDigitVal at hcv
    split_ifs at hcv <;> omega
  have hascii : ∀ x ∈ [(35:Nat), a1, a2, a3, a4, a5, a6], x < 128 := by
    intro x hm
    simp only [List.mem_cons, List.not_mem_nil, or_false] at hm
    rcases hm with rfl | rfl | rfl | rfl | rfl | rfl | rfl
    · omega
    · exact hlt _ _ hv1
    · exact hlt _ _ hv2
    · exact hlt _ _ hv3
    · exact hlt _ _ hv4
    · exact hlt _ _ hv5
    · exact hlt _ _ hv6
  have hbnd := isCharBoundary_of_ascii hascii
  unfold colorFromStr
  rw [if_neg (by simp)]
  rw [if_neg (by simp [hbnd])]
  have e1 : strSlice [35, a1, a2, a3, a4, a5, a6] 1 3 = [a1, a2] := rfl
  have e2 : strSlice [35, a1, a2, a3, a4, a5, a6] 3 5 = [a3, a4] := rfl
  have e3 : strSlice [35, a1, a2, a3, a4, a5, a6] 5 7 = [a5, a6] := rfl
  rw [e1, e2, e3, u8Pair_hex hv1 hv2, u8Pair_hex hv3 hv4, u8Pair_hex hv5 hv6]
  simp [hexValD, hv1, hv2, hv3, hv4, hv5, hv6, hbnd]

lemma colorDisplay_parses_aux (r g b : Nat) (hr : r < 256) (hg : g < 256) (hb : b < 256) :
    colorFromStr (colorDisplay ⟨r, g, b⟩) = some (.ok (Color.mk r g b)) := by
  have h16 : ∀ d : Nat, d < 16 → hexDigitVal (toHexByte d) = some d := by decide
  have hd1 := h16 (r / 16) (by omega)
  have hd2 := h16 (r % 16) (by omega)
  have hd3 := h16 (g / 16) (by omega)
  have hd4 := h16 (g % 16) (by omega)
  have hd5 := h16 (b / 16) (by omega)
  have hd6 := h16 (b % 16) (by omega)
  have hspec : specSixHexForm (colorDisplay ⟨r, g, b⟩) = true := by
    simp [specSixHexForm, colorDisplay, isHexDigit, hd1, hd2, hd3, hd4, hd5, hd6]
  rw [colorFromStr_sixhex_value_aux _ hspec]
  simp only [colorDisplay, List.getD_cons_zero, List.getD_cons_succ, hexValD,
    hd1, hd2, hd3, hd4, hd5, hd6, Option.getD_some, Option.some.injEq, Except.ok.injEq,
    Color.mk.injEq]
  omega


/-- Claim C5 (corrected): `Color::from_str` does not panic on any ASCII input
string; it always returns `Ok` or a parse error.  The original claim (total on
every string including non-ASCII) is false: slicing `&s[1..3]` or `&s[3..5]`
panics when byte index 3 or 5 of a 7-byte string falls inside a multi-byte
UTF-8 character. -/
theorem colorFromStr_total_on_ascii (s : List Nat) (h : ∀ x ∈ s, x < 128) :
    (colorFromStr s).isSome = true := by
  have hbnd := isCharBoundary_of_ascii h
  unfold colorFromStr
  split
  · rfl
  · rw [if_neg (by simp [hbnd])]
    split
    · rfl
    · rw [if_neg (by simp [hbnd])]
      split
      · rfl
      · rw [if_neg (by simp [hbnd])]
        split
        · rfl
        · rfl

/-- Witness for C5: the parser returns a result (no panic) on the ASCII string
"#abcdef". -/
theorem colorFromStr_total_on_ascii_witness :
    (colorFromStr [35, 97, 98, 99, 100, 101, 102]).isSome = true :=
  colorFromStr_total_on_ascii _ (by decide)

/-- Counterexample for C5: on the 7-byte string "#" ++ U+3042 ++ "xyz"
(bytes 35, 227, 129, 130, 120, 121, 122) the parser panics (modelled as
`none`): byte index 3 is a UTF-8 continuation byte, so `&s[1..3]` panics. -/
theorem colorFromStr_panics_on_nonascii :
    colorFromStr [35, 227, 129, 130, 120, 121, 122] = none := rfl

/-- Claim C4 (amended): on ASCII input, `Color::from_str` accepts a string iff
it is `#` followed by three 2-byte groups, each of which is either two hex
digits or a `+` sign followed by one hex digit (because `u8::from_str_radix`
accepts an optional leading `+`); a string of `#` followed by 6 hex digits
yields the corresponding (r, g, b) triple. -/
theorem color_parser_acceptance (s : List Nat) (h : ∀ x ∈ s, x < 128) :
    ((∃ c, colorFromStr s = some (.ok c)) ↔ acceptedForm s = true)
    ∧ (specSixHexForm s = true →
        colorFromStr s = some (.ok ⟨16 * hexValD (s.getD 1 0) + hexValD (s.getD 2 0),
                                    16 * hexValD (s.getD 3 0) + hexValD (s.getD 4 0),
                                    16 * hexValD (s.getD 5 0) + hexValD (s.getD 6 0)⟩)) :=
  ⟨colorFromStr_accepts_iff_aux s h, colorFromStr_sixhex_value_aux s⟩

/-- Witness for C4: "#ff0000" is ASCII and accepted. -/
theorem color_parser_acceptance_witness :
    ∃ c, colorFromStr [35, 102, 102, 48, 48, 48, 48] = some (Except.ok c) :=
  ((color_parser_acceptance [35, 102, 102, 48, 48, 48, 48] (by decide)).1).mpr (by decide)

/-- Counterexample for C4: the string "#+10000" (bytes 35, 43, 49, 48, 48, 48,
48) is not `#` followed by 6 hex digits, yet the parser accepts it and returns
(1, 0, 0). -/
theorem color_parser_plus_sign_counterexample :
    colorFromStr [35, 43, 49, 48, 48, 48, 48] = some (.ok ⟨1, 0, 0⟩)
    ∧ specSixHexForm [35, 43, 49, 48, 48, 48, 48] = false :=
  ⟨rfl, rfl⟩

/-- Claim C10 (confirmed): parsing the display form of any color (with `u8`
channels) returns the same color; the default background `Color::white()`
renders as "#ffffff" and parses back to (255, 255, 255). -/
theorem colorDisplay_roundtrip (r g b : Nat) (hr : r < 256) (hg : g < 256) (hb : b < 256) :
    colorFromStr (colorDisplay ⟨r, g, b⟩) = some (.ok (Color.mk r g b))
    ∧ colorDisplay Color.white = [35, 102, 102, 102, 102, 102, 102]
    ∧ colorFromStr [35, 102, 102, 102, 102, 102, 102] = some (.ok ⟨255, 255, 255⟩) :=
  ⟨colorDisplay_parses_aux r g b hr hg hb, rfl, rfl⟩

/-- Witness for C10: round trip at the concrete color (171, 205, 239). -/
theorem colorDisplay_roundtrip_witness :
    colorFromStr (colorDisplay ⟨171, 205, 239⟩) = some (.ok (Color.mk 171 205 239))
    ∧ colorDisplay Color.white = [35, 102, 102, 102, 102, 102, 102]
    ∧ colorFromStr [35, 102, 102, 102, 102, 102, 102] = some (.ok ⟨255, 255, 255⟩) :=
  colorDisplay_roundtrip 171 205 239 (by norm_num) (by norm_num) (by norm_num)

lemma pipeline_cons (op : ℚ) (col : Color) (r g b : Nat) (t : List Nat) :
    pipelinePixels op col (r :: g :: b :: t) =
      clampByte (blendChannel op col.r r) :: clampByte (blendChannel op col.g g) ::
        clampByte (blendChannel op col.b b) :: pipelinePixels op col t := rfl

lemma pipeline_nil (op : ℚ) (col : Color) : pipelinePixels op col [] = [] := rfl

lemma getD_add_three (l : List Nat) (a b c d : Nat) (n : Nat) :
    (a :: b :: c :: l).getD (n + 3) d = l.getD n d := by
  simp [List.getD]

lemma pipeline_getD_aux (op : ℚ) (col : Color) : ∀ (i : Nat) (rgb : List Nat) (n : Nat),
    rgb.length = 3 * n → i < n →
    (pipelinePixels op col rgb).getD (3 * i) 0
        = clampByte (blendChannel op col.r (rgb.getD (3 * i) 0))
    ∧ (pipelinePixels op col rgb).getD (3 * i + 1) 0
        = clampByte (blendChannel op col.g (rgb.getD (3 * i + 1) 0))
    ∧ (pipelinePixels op col rgb).getD (3 * i + 2) 0
        = clampByte (blendChannel op col.b (rgb.getD (3 * i + 2) 0)) := by
  intro i
  induction i with
  | zero =>
    intro rgb n hlen hi
    rcases rgb with _ | ⟨r, _ | ⟨g, _ | ⟨b, t⟩⟩⟩ <;> simp only [List.length] at hlen <;>
      try omega
    rw [pipeline_cons]
    simp
  | succ i ih =>
    intro rgb n hlen hi
    rcases rgb with _ | ⟨r, _ | ⟨g, _ | ⟨b, t⟩⟩⟩ <;> simp only [List.length] at hlen <;>
      try omega
    have hlt : t.length = 3 * (n - 1) := by omega
    have hin : i < n - 1 := by omega
    have h3 : 3 * (i + 1) = 3 * i + 3 := by ring
    obtain ⟨e0, e1, e2⟩ := ih t (n - 1) hlt hin
    rw [pipeline_cons]
    refine ⟨?_, ?_, ?_⟩
    · rw [h3, getD_add_three, getD_add_three, e0]
    · rw [h3]
      have h4 : 3 * i + 3 + 1 = 3 * i + 1 + 3 := by ring
      rw [h4, getD_add_three, getD_add_three, e1]
    · rw [h3]
      have h4 : 3 * i + 3 + 2 = 3 * i + 2 + 3 := by ring
      rw [h4, getD_add_three, getD_add_three, e2]

lemma expandBgra_length : ∀ l : List Nat, (expandBgra l).length = 4 * (l.length / 3) := by
  intro l
  induction l using expandBgra.induct with
  | case1 r g b rest ih =>
    simp only [expandBgra, List.length_cons, ih]
    omega
  | case2 l h =>
    rcases l with _ | ⟨a, _ | ⟨b, _ | ⟨c, t⟩⟩⟩
    · simp [expandBgra]
    · simp [expandBgra]
    · simp [expandBgra]
    · exact absurd rfl (h a b c t)

lemma clampByte_lt (x : ℤ) : clampByte x < 256 := by
  unfold clampByte
  omega

lemma clampByte_of_le {x : ℤ} (h0 : 0 ≤ x) (h255 : x ≤ 255) : (clampByte x : ℤ) = x := by
  unfold clampByte
  omega

lemma clampByte_natCast {v : Nat} (hv : v < 256) : clampByte (v : ℤ) = v := by
  unfold clampByte
  omega

lemma pipeline_length_aux (op : ℚ) (col : Color) :
    ∀ (l : List Nat) (n : Nat), l.length = 3 * n → (pipelinePixels op col l).length = 3 * n := by
  intro l
  induction l using expandBgra.induct with
  | case1 r g b rest ih =>
    intro n hlen
    simp only [List.length_cons] at hlen
    have h1 : rest.length = 3 * (n - 1) := by omega
    rw [pipeline_cons]
    simp only [List.length_cons, ih (n - 1) h1]
    omega
  | case2 l h =>
    intro n hlen
    rcases l with _ | ⟨a, _ | ⟨b, _ | ⟨c, t⟩⟩⟩
    · rw [pipeline_nil]
      simp only [List.length_nil] at hlen ⊢
      omega
    · simp only [List.length] at hlen
      omega
    · simp only [List.length] at hlen
      omega
    · exact absurd rfl (h a b c t)

lemma pipeline_bytes_aux (op : ℚ) (col : Color) :
    ∀ l : List Nat, ∀ x ∈ pipelinePixels op col l, x < 256 := by
  intro l
  induction l using expandBgra.induct with
  | case1 r g b rest ih =>
    rw [pipeline_cons]
    intro x hx
    simp only [List.mem_cons] at hx
    rcases hx with rfl | rfl | rfl | hx
    · exact clampByte_lt _
    · exact clampByte_lt _
    · exact clampByte_lt _
    · exact ih x hx
  | case2 l h =>
    rcases l with _ | ⟨a, _ | ⟨b, _ | ⟨c, t⟩⟩⟩
    · intro x hx
      rw [pipeline_nil] at hx
      cases hx
    · intro x hx
      have e : pipelinePixels op col [a] = [] := rfl
      rw [e] at hx
      cases hx
    · intro x hx
      have e : pipelinePixels op col [a, b] = [] := rfl
      rw [e] at hx
      cases hx
    · exact absurd rfl (h a b c t)

lemma blendChannel_eq (op : ℚ) (bg ph : Nat) :
    blendChannel op bg ph = round ((bg : ℚ) + op * ((ph : ℚ) - (bg : ℚ))) := by
  unfold blendChannel
  congr 1
  field_simp
  ring

lemma round_mono_rat {x y : ℚ} (h : x ≤ y) : round x ≤ round y := by
  rw [round_eq, round_eq]
  exact Int.floor_le_floor (by linarith)

lemma round_255 : round (255 : ℚ) = 255 := by
  have h := round_natCast (α := ℚ) 255
  simpa using h

lemma blendChannel_zero (bg ph : Nat) : blendChannel 0 bg ph = (bg : ℤ) := by
  rw [blendChannel_eq]
  simp [round_natCast]

lemma blendChannel_one (bg ph : Nat) : blendChannel 1 bg ph = (ph : ℤ) := by
  rw [blendChannel_eq]
  have h : (bg : ℚ) + 1 * ((ph : ℚ) - bg) = (ph : ℚ) := by ring
  rw [h, round_natCast]

lemma blendChannel_lower {op : ℚ} (h0 : 0 ≤ op) (h1 : op ≤ 1) (bg ph : Nat) :
    0 ≤ blendChannel op bg ph := by
  rw [blendChannel_eq]
  have hbg : (0 : ℚ) ≤ (bg : ℚ) := Nat.cast_nonneg bg
  have hph : (0 : ℚ) ≤ (ph : ℚ) := Nat.cast_nonneg ph
  have harg : (0 : ℚ) ≤ (bg : ℚ) + op * ((ph : ℚ) - bg) := by
    rcases le_total ((bg : ℚ)) ((ph : ℚ)) with hle | hle
    · nlinarith
    · nlinarith
  calc (0 : ℤ) = round (0 : ℚ) := by simp
    _ ≤ _ := round_mono_rat harg

lemma blendChannel_upper {op : ℚ} (h0 : 0 ≤ op) (h1 : op ≤ 1) {bg ph : Nat}
    (hbg : bg < 256) (hph : ph < 256) : blendChannel op bg ph ≤ 255 := by
  rw [blendChannel_eq]
  have hbg2 : (bg : ℚ) ≤ 255 := by
    have : bg ≤ 255 := by omega
    exact_mod_cast this
  have hph2 : (ph : ℚ) ≤ 255 := by
    have : ph ≤ 255 := by omega
    exact_mod_cast this
  have harg : (bg : ℚ) + op * ((ph : ℚ) - bg) ≤ 255 := by
    rcases le_total ((bg : ℚ)) ((ph : ℚ)) with hle | hle
    · nlinarith
    · nlinarith
  calc round ((bg : ℚ) + op * ((ph : ℚ) - bg)) ≤ round (255 : ℚ) := round_mono_rat harg
    _ = 255 := round_255

/-- Claim C1 (confirmed; blend rule modelled from the spec since it executes
inside cairo): for every pixel and every color channel, the pipeline output is
`round((background/255 * (1 - opacity) + photo/255 * opacity) * 255)`, an
8-bit value; the same scalar opacity enters the formula at every pixel, and only
the three color samples of the photo (never a per-pixel alpha) appear in it. -/
theorem blend_formula_per_pixel (op : ℚ) (col : Color) (rgb : List Nat) (n i : Nat)
    (hop0 : 0 ≤ op) (hop1 : op ≤ 1)
    (hcr : col.r < 256) (hcg : col.g < 256) (hcb : col.b < 256)
    (hbytes : ∀ x ∈ rgb, x < 256)
    (hlen : rgb.length = 3 * n) (hi : i < n) :
    (pipelinePixels op col rgb).length = 3 * n
    ∧ (∀ x ∈ pipelinePixels op col rgb, x < 256)
    ∧ ((pipelinePixels op col rgb).getD (3 * i) 0 : ℤ)
        = round ((((col.r : ℚ) / 255) * (1 - op) + ((rgb.getD (3 * i) 0 : ℚ) / 255) * op) * 255)
    ∧ ((pipelinePixels op col rgb).getD (3 * i + 1) 0 : ℤ)
        = round ((((col.g : ℚ) / 255) * (1 - op) + ((rgb.getD (3 * i + 1) 0 : ℚ) / 255) * op) * 255)
    ∧ ((pipelinePixels op col rgb).getD (3 * i + 2) 0 : ℤ)
        = round ((((col.b : ℚ) / 255) * (1 - op) + ((rgb.getD (3 * i + 2) 0 : ℚ) / 255) * op) * 255) := by
  obtain ⟨e0, e1, e2⟩ := pipeline_getD_aux op col i rgb n hlen hi
  have hv0 : rgb.getD (3 * i) 0 < 256 := by
    have hlt : 3 * i < rgb.length := by omega
    rw [List.getD_eq_getElem _ _ hlt]
    exact hbytes _ (List.getElem_mem hlt)
  have hv1 : rgb.getD (3 * i + 1) 0 < 256 := by
    have hlt : 3 * i + 1 < rgb.length := by omega
    rw [List.getD_eq_getElem _ _ hlt]
    exact hbytes _ (List.getElem_mem hlt)
  have hv2 : rgb.getD (3 * i + 2) 0 < 256 := by
    have hlt : 3 * i + 2 < rgb.length := by omega
    rw [List.getD_eq_getElem _ _ hlt]
    exact hbytes _ (List.getElem_mem hlt)
  refine ⟨pipeline_length_aux op col rgb n hlen, pipeline_bytes_aux op col rgb, ?_, ?_, ?_⟩
  · rw [e0, clampByte_of_le (blendChannel_lower hop0 hop1 _ _)
      (blendChannel_upper hop0 hop1 hcr hv0)]
    rfl
  · rw [e1, clampByte_of_le (blendChannel_lower hop0 hop1 _ _)
      (blendChannel_upper hop0 hop1 hcg hv1)]
    rfl
  · rw [e2, clampByte_of_le (blendChannel_lower hop0 hop1 _ _)
      (blendChannel_upper hop0 hop1 hcb hv2)]
    rfl

/-- Witness for C1: at opacity 1/2 over a white background, the first channel
of an all-black 1-pixel photo follows the blend formula. -/
theorem blend_formula_per_pixel_witness :
    ((pipelinePixels (1/2) Color.white [0, 0, 0]).getD (3 * 0) 0 : ℤ)
      = round ((((Color.white.r : ℚ) / 255) * (1 - 1/2)
          + (([0, 0, 0].getD (3 * 0) 0 : ℚ) / 255) * (1/2)) * 255) :=
  (blend_formula_per_pixel (1/2) Color.white [0, 0, 0] 1 0 (by norm_num) (by norm_num)
    (by decide) (by decide) (by decide) (by decide) (by decide) (by decide)).2.2.1

/-- Claim C2 (confirmed; blend rule modelled from the spec): at opacity 0 every
output pixel is exactly the background color, and at opacity 1 it is exactly
the photo pixel — equality, hence within the claimed ±1 rounding margin. -/
theorem opacity_extremes (col : Color) (rgb : List Nat) (n i : Nat)
    (hcr : col.r < 256) (hcg : col.g < 256) (hcb : col.b < 256)
    (hbytes : ∀ x ∈ rgb, x < 256)
    (hlen : rgb.length = 3 * n) (hi : i < n) :
    (pipelinePixels 0 col rgb).getD (3 * i) 0 = col.r
    ∧ (pipelinePixels 0 col rgb).getD (3 * i + 1) 0 = col.g
    ∧ (pipelinePixels 0 col rgb).getD (3 * i + 2) 0 = col.b
    ∧ (pipelinePixels 1 col rgb).getD (3 * i) 0 = rgb.getD (3 * i) 0
    ∧ (pipelinePixels 1 col rgb).getD (3 * i + 1) 0 = rgb.getD (3 * i + 1) 0
    ∧ (pipelinePixels 1 col rgb).getD (3 * i + 2) 0 = rgb.getD (3 * i + 2) 0 := by
  obtain ⟨z0, z1, z2⟩ := pipeline_getD_aux 0 col i rgb n hlen hi
  obtain ⟨o0, o1, o2⟩ := pipeline_getD_aux 1 col i rgb n hlen hi
  have hv0 : rgb.getD (3 * i) 0 < 256 := by
    have hlt : 3 * i < rgb.length := by omega
    rw [List.getD_eq_getElem _ _ hlt]
    exact hbytes _ (List.getElem_mem hlt)
  have hv1 : rgb.getD (3 * i + 1) 0 < 256 := by
    have hlt : 3 * i + 1 < rgb.length := by omega
    rw [List.getD_eq_getElem _ _ hlt]
    exact hbytes _ (List.getElem_mem hlt)
  have hv2 : rgb.getD (3 * i + 2) 0 < 256 := by
    have hlt : 3 * i + 2 < rgb.length := by omega
    rw [List.getD_eq_getElem _ _ hlt]
    exact hbytes _ (List.getElem_mem hlt)
  refine ⟨?_, ?_, ?_, ?_, ?_, ?_⟩
  · rw [z0, blendChannel_zero, clampByte_natCast hcr]
  · rw [z1, blendChannel_zero, clampByte_natCast hcg]
  · rw [z2, blendChannel_zero, clampByte_natCast hcb]
  · rw [o0, blendChannel_one, clampByte_natCast hv0]
  · rw [o1, blendChannel_one, clampByte_natCast hv1]
  · rw [o2, blendChannel_one, clampByte_natCast hv2]

/-- Witness for C2: opacity 0 over background (1, 2, 3) yields the background
red channel at pixel 0. -/
theorem opacity_extremes_witness :
    (pipelinePixels 0 (Color.mk 1 2 3) [4, 5, 6]).getD (3 * 0) 0 = (Color.mk 1 2 3).r :=
  (opacity_extremes (Color.mk 1 2 3) [4, 5, 6] 1 0 (by decide) (by decide) (by decide)
    (by decide) (by decide) (by decide)).1

/-- Claim C3 (confirmed; blend rule modelled from the spec, byte orders from
`decode_jpeg` and `encode_jpeg`): a 1-pixel photo with pairwise distinct
channel values, composited at opacity 1, reaches the encoder with the three
values in their original channel positions — the RGB→BGRA expansion of
`decode_jpeg` matches the `ColorType::Bgra` declaration of `encode_jpeg`, so
red and blue are never swapped end to end. -/
theorem channel_order_roundtrip (r g b : Nat) (col : Color)
    (hr : r < 256) (hg : g < 256) (hb : b < 256)
    (hrg : r ≠ g) (hgb : g ≠ b) (hrb : r ≠ b) :
    pipelinePixels 1 col [r, g, b] = [r, g, b] := by
  rw [pipeline_cons, blendChannel_one, blendChannel_one, blendChannel_one,
    clampByte_natCast hr, clampByte_natCast hg, clampByte_natCast hb, pipeline_nil]

/-- Witness for C3: the distinct triple (10, 20, 30) survives the pipeline at
opacity 1 over a white background. -/
theorem channel_order_roundtrip_witness :
    pipelinePixels 1 Color.white [10, 20, 30] = [10, 20, 30] :=
  channel_order_roundtrip 10 20 30 Color.white (by decide) (by decide) (by decide)
    (by decide) (by decide) (by decide)

/-- Claim C8 (confirmed; blend rule modelled from the spec): for a fixed
channel with background value `bg` and photo value `ph`, the blended value is
monotone in the opacity — non-decreasing towards `ph` when `ph ≥ bg`,
non-increasing towards `ph` when `ph ≤ bg`. -/
theorem blend_monotone_in_opacity (bg ph : Nat) (op op' : ℚ)
    (h0 : 0 ≤ op) (hle : op ≤ op') (h1 : op' ≤ 1) :
    (bg ≤ ph → blendChannel op bg ph ≤ blendChannel op' bg ph)
    ∧ (ph ≤ bg → blendChannel op' bg ph ≤ blendChannel op bg ph) := by
  constructor
  · intro hc
    rw [blendChannel_eq, blendChannel_eq]
    apply round_mono_rat
    have hq : (bg : ℚ) ≤ (ph : ℚ) := by exact_mod_cast hc
    nlinarith
  · intro hc
    rw [blendChannel_eq, blendChannel_eq]
    apply round_mono_rat
    have hq : (ph : ℚ) ≤ (bg : ℚ) := by exact_mod_cast hc
    nlinarith

/-- Witness for C8: with background 0 and photo 255, the blend at opacity 0 is
at most the blend at opacity 1. -/
theorem blend_monotone_in_opacity_witness :
    blendChannel 0 0 255 ≤ blendChannel 1 0 255 :=
  (blend_monotone_in_opacity 0 255 0 1 (by norm_num) (by norm_num) (by norm_num)).1
    (by norm_num)

/-- Claim C6 (confirmed): the width and height handed to the encoder equal the
width and height of the decoded input image, for any dimensions the
`u16` metadata fields can report. -/
theorem dims_preserved (w h : Nat) (hw : w < 65536) (hh : h < 65536) :
    mainDims w h = (w, h) := by
  unfold mainDims u16OfInt32 int32OfNat
  rw [if_pos (by omega), if_pos (by omega)]
  simp only [Prod.mk.injEq]
  constructor <;> omega

/-- Witness for C6: dimensions 123 × 456 survive the pipeline unchanged. -/
theorem dims_preserved_witness : mainDims 123 456 = (123, 456) :=
  dims_preserved 123 456 (by norm_num) (by norm_num)

/-- Claim C9 (confirmed): for any u16-bounded dimension, the conversion to
the cairo `i32` is exact and the `as u16` cast in `encode_jpeg` recovers it —
the cast never truncates for an image that reaches the encode step. -/
theorem encoder_cast_lossless (w : Nat) (hw : w < 65536) :
    int32OfNat w = (w : ℤ) ∧ u16OfInt32 (int32OfNat w) = w := by
  unfold int32OfNat u16OfInt32
  rw [if_pos (by omega)]
  constructor <;> omega

/-- Witness for C9: the cast chain is the identity at width 40000. -/
theorem encoder_cast_lossless_witness :
    int32OfNat 40000 = (40000 : ℤ) ∧ u16OfInt32 (int32OfNat 40000) = 40000 :=
  encoder_cast_lossless 40000 (by norm_num)

/-- Claim C7 (amended): `decode_jpeg` never compares the decoded buffer
length with `width * height * 3`: bytes after the last whole 3-byte chunk are
dropped by `chunks_exact(3)`, and the decode succeeds iff the expanded
4-bytes-per-chunk buffer reaches `height * stride` — oversized buffers are
silently tolerated; only buffers with too few whole chunks fail. -/
theorem decode_succeeds_iff (rgb : List Nat) (w h : Nat) :
    (∃ s, decodeJpeg rgb (some (w, h, PixelFormat.rgb24)) = .ok s)
      ↔ h * strideForWidth w ≤ 4 * (rgb.length / 3) := by
  simp only [decodeJpeg, createForData]
  rw [if_neg (by simp), expandBgra_length]
  split_ifs with hc
  · constructor
    · rintro ⟨s, hs⟩
      cases hs
    · intro hle
      omega
  · constructor
    · intro _
      omega
    · intro _
      exact ⟨_, rfl⟩

/-- Counterexample for C7: a 1×1 RGB24 decode whose sample buffer has 4 bytes
(≠ 1·1·3) succeeds — `chunks_exact(3)` silently drops the surplus byte and the
surface is created from the one whole chunk. -/
theorem decode_length_mismatch_tolerated :
    decodeJpeg [10, 20, 30, 40] (some (1, 1, PixelFormat.rgb24))
        = .ok ⟨1, 1, [30, 20, 10, 0]⟩
    ∧ [10, 20, 30, 40].length ≠ 1 * 1 * 3 := by
  constructor
  · rfl
  · decide

end Blend
